import Mathlib

/-!
Verification of the `letterwords` phrase enumerator
(src/archive/experiments/letterwords/rust/src/main.rs).

A Rust `String` is modelled as its list of Unicode scalar values
(`List Char`); `String::len` (the byte length) is recovered as the sum of
the UTF-8 sizes of the characters.  The two `u32` targets are modelled as
natural numbers below `2 ^ 32`, and the `usize` subtraction in the seed
filter is modelled with explicit wrap-around modulo `2 ^ 64` (the release
build semantics of an underflowing `usize` subtraction).
-/

namespace Letterwords

/-- A Rust `String`, as its sequence of Unicode scalar values. -/
abbrev Wd := List Char

/-- Rust `String::len`: the length of the string in bytes (UTF-8). -/
def strLen (s : Wd) : Nat := (s.map Char.utf8Size).sum

/-- Rust `string.matches(' ').count()`: the number of space characters. -/
def countSpaces (s : Wd) : Nat := (s.filter (fun c => c == ' ')).length

/-- `count_characters` from the source:
`string.chars().count() - string.matches(' ').count()`. -/
def count_characters (s : Wd) : Nat := s.length - countSpaces s

/-- `count_words` from the source: `string.matches(' ').count() + 1`. -/
def count_words (s : Wd) : Nat := countSpaces s + 1

/-- The modulus of `usize` arithmetic on a 64-bit target. -/
def USIZE : Nat := 2 ^ 64

/-- Wrapping `usize` subtraction (release-build semantics), for `a b < USIZE`. -/
def usizeSub (a b : Nat) : Nat := (USIZE + a - b) % USIZE

/-- The seed filter bound `(letter_count as usize) + 1 - (word_count as usize)`
computed by `main` with `usize` wrap-around. -/
def seedBound (letter_count word_count : Nat) : Nat :=
  usizeSub (letter_count + 1) word_count

/-- The initial frontier built by `main`:
`words.filter(|w| w.len() <= letter_count + 1 - word_count)`, in order. -/
def seed (words : List Wd) (word_count letter_count : Nat) : List Wd :=
  words.filter (fun w => decide (strLen w ≤ seedBound letter_count word_count))

/-- `format!("{} {}", check, word)`. -/
def joinWord (check w : Wd) : Wd := check ++ [' '] ++ w

/-- The per-expansion push condition from the inner loop of `main`:
`word.len() + cc < letter_count || (wc == word_count - 1 && word.len() + cc == letter_count)`
(the `word_count - 1` is `usize` subtraction, evaluated only when `wc < word_count`). -/
def pushCond (word_count letter_count cc wc : Nat) (w : Wd) : Prop :=
  strLen w + cc < letter_count ∨
    (wc = usizeSub word_count 1 ∧ strLen w + cc = letter_count)

instance (word_count letter_count cc wc : Nat) (w : Wd) :
    Decidable (pushCond word_count letter_count cc wc w) := by
  unfold pushCond; infer_instance

/-- The list of candidates pushed (in dictionary order) when expanding the
candidate `check` with character count `cc` and word count `wc`. -/
def expandOne (words : List Wd) (word_count letter_count cc wc : Nat)
    (check : Wd) : List Wd :=
  (words.filter (fun w => decide (pushCond word_count letter_count cc wc w))).map
    (joinWord check)

/-- The mutable state of the `while` loop in `main`: the `possibilities`
stack (frontier) and the `phrases` accumulator. -/
structure SState where
  frontier : List Wd
  phrases : List Wd
deriving DecidableEq

/-- One iteration of the `while possibilities.len() > 0` loop: pop the last
element, record it if it matches exactly, expand it if it is still
admissible, or discard it.  `none` when the frontier is empty. -/
def stepFn (words : List Wd) (word_count letter_count : Nat) (s : SState) :
    Option SState :=
  match s.frontier.getLast? with
  | none => none
  | some check =>
    let rest := s.frontier.dropLast
    let cc := count_characters check
    let wc := count_words check
    if cc = letter_count ∧ wc = word_count then
      some ⟨rest, s.phrases ++ [check]⟩
    else if wc < word_count ∧ cc < letter_count then
      some ⟨rest ++ expandOne words word_count letter_count cc wc check,
        s.phrases⟩
    else
      some ⟨rest, s.phrases⟩

/-- Iterate `stepFn` at most `n` times (stopping at an empty frontier). -/
def stepN (words : List Wd) (word_count letter_count : Nat) :
    Nat → SState → SState
  | 0, s => s
  | n + 1, s =>
    match stepFn words word_count letter_count s with
    | none => s
    | some s' => stepN words word_count letter_count n s'

/-- Termination measure of one candidate: `(n + 1) ^ (word_count - wc)`,
where `n` is the dictionary size. -/
def phraseMeasure (n word_count : Nat) (c : Wd) : Nat :=
  (n + 1) ^ (word_count - count_words c)

/-- Termination measure of a frontier: the sum of its candidates' measures. -/
def frontierMeasure (n word_count : Nat) (f : List Wd) : Nat :=
  (f.map (phraseMeasure n word_count)).sum

/-- The state right after seeding the frontier. -/
def initState (words : List Wd) (word_count letter_count : Nat) : SState :=
  ⟨seed words word_count letter_count, []⟩

/-- A provably sufficient iteration budget for the loop to drain the frontier. -/
def searchFuel (words : List Wd) (word_count letter_count : Nat) : Nat :=
  frontierMeasure words.length word_count (seed words word_count letter_count)

/-- The final state of the `while` loop of `main`. -/
def runSearch (words : List Wd) (word_count letter_count : Nat) : SState :=
  stepN words word_count letter_count (searchFuel words word_count letter_count)
    (initState words word_count letter_count)

/-- The final `phrases` vector of `main`, in the order phrases were found. -/
def mainPhrases (words : List Wd) (word_count letter_count : Nat) : List Wd :=
  (runSearch words word_count letter_count).phrases

/-- The count printed by `main`: `phrases.len()`. -/
def mainCount (words : List Wd) (word_count letter_count : Nat) : Nat :=
  (mainPhrases words word_count letter_count).length

theorem countSpaces_le_length (s : Wd) : countSpaces s ≤ s.length :=
  List.length_filter_le _ s

theorem length_le_strLen (s : Wd) : s.length ≤ strLen s := by
  unfold strLen
  induction s with
  | nil => simp
  | cons c t ih =>
    simp only [List.map_cons, List.sum_cons, List.length_cons]
    have := Char.utf8Size_pos c
    omega

theorem count_characters_le_strLen (s : Wd) : count_characters s ≤ strLen s :=
  le_trans (Nat.sub_le _ _) (length_le_strLen s)

theorem countSpaces_join (c w : Wd) :
    countSpaces (joinWord c w) = countSpaces c + 1 + countSpaces w := by
  unfold joinWord countSpaces
  simp [List.filter_append]
  omega

theorem count_words_join (c w : Wd) :
    count_words (joinWord c w) = count_words c + count_words w := by
  unfold count_words
  rw [countSpaces_join]; omega

theorem count_characters_join (c w : Wd) :
    count_characters (joinWord c w) =
      count_characters c + count_characters w := by
  have hc := countSpaces_le_length c
  have hw := countSpaces_le_length w
  unfold count_characters joinWord
  rw [show countSpaces (c ++ [' '] ++ w) = countSpaces c + 1 + countSpaces w
    from countSpaces_join c w]
  simp only [List.length_append, List.length_cons, List.length_nil]
  omega

theorem one_le_count_words (s : Wd) : 1 ≤ count_words s := by
  unfold count_words; omega

theorem count_characters_of_space_free (s : Wd) (h : countSpaces s = 0) :
    count_characters s = s.length := by
  unfold count_characters; omega

theorem count_words_of_space_free (s : Wd) (h : countSpaces s = 0) :
    count_words s = 1 := by
  unfold count_words; omega

theorem mem_expandOne {words : List Wd} {word_count letter_count cc wc : Nat}
    {check x : Wd} :
    x ∈ expandOne words word_count letter_count cc wc check ↔
      ∃ w ∈ words, pushCond word_count letter_count cc wc w ∧
        x = joinWord check w := by
  unfold expandOne
  simp only [List.mem_map, List.mem_filter, decide_eq_true_eq]
  constructor
  · rintro ⟨w, ⟨hw, hp⟩, hx⟩; exact ⟨w, hw, hp, hx.symm⟩
  · rintro ⟨w, hw, hp, hx⟩; exact ⟨w, ⟨hw, hp⟩, hx.symm⟩

theorem count_words_lt_of_mem_expandOne {words : List Wd}
    {word_count letter_count cc wc : Nat} {check x : Wd}
    (h : x ∈ expandOne words word_count letter_count cc wc check) :
    count_words check < count_words x := by
  obtain ⟨w, -, -, hx⟩ := mem_expandOne.mp h
  subst hx
  rw [count_words_join]
  have := one_le_count_words w
  omega

/-- The list of exact matches eventually recorded from one frontier
candidate, in discovery order (each pushed batch is consumed
last-in-first-out, hence the `reverse`). -/
def subtree (words : List Wd) (word_count letter_count : Nat) (c : Wd) :
    List Wd :=
  let cc := count_characters c
  let wc := count_words c
  if cc = letter_count ∧ wc = word_count then [c]
  else if _h : wc < word_count ∧ cc < letter_count then
    ((expandOne words word_count letter_count cc wc c).reverse.attach.map
      (fun x => subtree words word_count letter_count x.1)).flatten
  else []
termination_by word_count - count_words c
decreasing_by
  have hx : x.1 ∈ expandOne words word_count letter_count
      (count_characters c) (count_words c) c := by
    have := x.2
    rwa [List.mem_reverse] at this
  have := count_words_lt_of_mem_expandOne hx
  omega

theorem subtree_match {words : List Wd} {word_count letter_count : Nat}
    {c : Wd} (h1 : count_characters c = letter_count)
    (h2 : count_words c = word_count) :
    subtree words word_count letter_count c = [c] := by
  rw [subtree]
  simp [h1, h2]

theorem subtree_expand {words : List Wd} {word_count letter_count : Nat}
    {c : Wd} (h1 : ¬(count_characters c = letter_count ∧
      count_words c = word_count))
    (h2 : count_words c < word_count)
    (h3 : count_characters c < letter_count) :
    subtree words word_count letter_count c =
      ((expandOne words word_count letter_count (count_characters c)
          (count_words c) c).reverse.map
        (subtree words word_count letter_count)).flatten := by
  rw [subtree]
  simp only [h1, if_false, h2, h3, and_self, dif_pos]
  rw [List.attach_map_val]

theorem subtree_else {words : List Wd} {word_count letter_count : Nat}
    {c : Wd} (h1 : ¬(count_characters c = letter_count ∧
      count_words c = word_count))
    (h2 : ¬(count_words c < word_count ∧
      count_characters c < letter_count)) :
    subtree words word_count letter_count c = [] := by
  rw [subtree]
  simp [h1, h2]

theorem subtree_of_lt {words : List Wd} {word_count letter_count : Nat}
    {c : Wd} (h : letter_count < count_characters c) :
    subtree words word_count letter_count c = [] := by
  apply subtree_else
  · rintro ⟨h1, -⟩; omega
  · rintro ⟨-, h3⟩; omega

theorem eq_dropLast_concat :
    ∀ {l : List Wd} {c : Wd}, l.getLast? = some c → l = l.dropLast ++ [c]
  | [], _, h => by simp at h
  | [a], c, h => by
    simp only [List.getLast?_singleton, Option.some.injEq] at h
    simp [h]
  | a :: b :: t, c, h => by
    rw [List.getLast?_cons_cons] at h
    have ih := eq_dropLast_concat (l := b :: t) h
    calc a :: b :: t = a :: ((b :: t).dropLast ++ [c]) := by rw [← ih]
    _ = (a :: b :: t).dropLast ++ [c] := by simp

theorem frontierMeasure_append (n W : Nat) (l l' : List Wd) :
    frontierMeasure n W (l ++ l') =
      frontierMeasure n W l + frontierMeasure n W l' := by
  unfold frontierMeasure
  simp

theorem one_le_phraseMeasure (n W : Nat) (c : Wd) :
    1 ≤ phraseMeasure n W c :=
  Nat.one_le_pow _ _ (Nat.succ_pos n)

theorem frontierMeasure_expandOne (words : List Wd)
    (word_count letter_count cc : Nat) {check : Wd}
    (hwc : count_words check < word_count) :
    frontierMeasure words.length word_count
        (expandOne words word_count letter_count cc (count_words check) check) <
      phraseMeasure words.length word_count check := by
  set n := words.length with hn
  set wc := count_words check with hwcdef
  have hbound : ∀ x ∈ (expandOne words word_count letter_count cc wc
      check).map (phraseMeasure n word_count),
      x ≤ (n + 1) ^ (word_count - wc - 1) := by
    intro x hx
    obtain ⟨y, hy, hxy⟩ := List.mem_map.mp hx
    have hlt := count_words_lt_of_mem_expandOne hy
    subst hxy
    unfold phraseMeasure
    exact Nat.pow_le_pow_right (Nat.succ_pos n) (by omega)
  have hlen : (expandOne words word_count letter_count cc wc check).length
      ≤ n := by
    unfold expandOne
    rw [List.length_map]
    exact List.length_filter_le _ _
  have hsum := List.sum_le_card_nsmul
    ((expandOne words word_count letter_count cc wc check).map
      (phraseMeasure n word_count)) ((n + 1) ^ (word_count - wc - 1)) hbound
  rw [List.length_map] at hsum
  unfold frontierMeasure phraseMeasure
  have hpos : 0 < (n + 1) ^ (word_count - wc - 1) :=
    Nat.pos_pow_of_pos _ (Nat.succ_pos n)
  calc ((expandOne words word_count letter_count cc wc check).map
        (phraseMeasure n word_count)).sum
      ≤ (expandOne words word_count letter_count cc wc check).length •
        ((n + 1) ^ (word_count - wc - 1)) := hsum
    _ = (expandOne words word_count letter_count cc wc check).length *
        ((n + 1) ^ (word_count - wc - 1)) := by rw [smul_eq_mul]
    _ ≤ n * ((n + 1) ^ (word_count - wc - 1)) :=
        Nat.mul_le_mul_right _ hlen
    _ < (n + 1) * ((n + 1) ^ (word_count - wc - 1)) :=
        (Nat.mul_lt_mul_right hpos).mpr (Nat.lt_succ_self n)
    _ = (n + 1) ^ (word_count - wc - 1 + 1) := by rw [Nat.pow_succ]; ring
    _ = (n + 1) ^ (word_count - wc) := by
        congr 1
        omega

theorem stepFn_measure {words : List Wd} {word_count letter_count : Nat}
    {s s' : SState} (h : stepFn words word_count letter_count s = some s') :
    frontierMeasure words.length word_count s'.frontier <
      frontierMeasure words.length word_count s.frontier := by
  unfold stepFn at h
  cases hl : s.frontier.getLast? with
  | none => rw [hl] at h; exact absurd h (by simp)
  | some check =>
    rw [hl] at h
    simp only at h
    have hdec := eq_dropLast_concat hl
    have hμ := one_le_phraseMeasure words.length word_count check
    by_cases h1 : count_characters check = letter_count ∧
        count_words check = word_count
    · rw [if_pos h1] at h
      obtain rfl : s' = ⟨s.frontier.dropLast, s.phrases ++ [check]⟩ :=
        (Option.some.injEq _ _ ▸ h).symm
      conv_rhs => rw [hdec]
      rw [frontierMeasure_append]
      unfold frontierMeasure
      simp only [List.map_cons, List.map_nil, List.sum_cons, List.sum_nil]
      omega
    · rw [if_neg h1] at h
      by_cases h2 : count_words check < word_count ∧
          count_characters check < letter_count
      · rw [if_pos h2] at h
        obtain rfl : s' = ⟨s.frontier.dropLast ++
            expandOne words word_count letter_count
              (count_characters check) (count_words check) check,
            s.phrases⟩ := (Option.some.injEq _ _ ▸ h).symm
        conv_rhs => rw [hdec]
        rw [frontierMeasure_append, frontierMeasure_append]
        have := frontierMeasure_expandOne words word_count letter_count
          (count_characters check) h2.1
        have hone : frontierMeasure words.length word_count [check] =
            phraseMeasure words.length word_count check := by
          unfold frontierMeasure
          simp
        omega
      · rw [if_neg h2] at h
        obtain rfl : s' = ⟨s.frontier.dropLast, s.phrases⟩ :=
          (Option.some.injEq _ _ ▸ h).symm
        conv_rhs => rw [hdec]
        rw [frontierMeasure_append]
        unfold frontierMeasure
        simp only [List.map_cons, List.map_nil, List.sum_cons, List.sum_nil]
        omega

theorem stepN_of_empty {words : List Wd} {word_count letter_count : Nat}
    {s : SState} (h : s.frontier = []) (n : Nat) :
    stepN words word_count letter_count n s = s := by
  cases n with
  | zero => rfl
  | succ n =>
    unfold stepN stepFn
    rw [h]
    rfl

theorem frontierMeasure_pos {n W : Nat} {f : List Wd} (h : f ≠ []) :
    0 < frontierMeasure n W f := by
  cases f with
  | nil => exact absurd rfl h
  | cons c t =>
    unfold frontierMeasure
    simp only [List.map_cons, List.sum_cons]
    have := one_le_phraseMeasure n W c
    omega

theorem stepN_succ (words : List Wd) (word_count letter_count n : Nat)
    (s : SState) :
    stepN words word_count letter_count (n + 1) s =
      match stepFn words word_count letter_count s with
      | none => s
      | some s' => stepN words word_count letter_count n s' := rfl

theorem stepFn_isSome (words : List Wd) (word_count letter_count : Nat)
    {s : SState} (h : s.frontier ≠ []) :
    ∃ s', stepFn words word_count letter_count s = some s' := by
  have hlast : ∃ c, s.frontier.getLast? = some c := by
    cases hgl : s.frontier.getLast? with
    | none => exact absurd (List.getLast?_eq_none_iff.mp hgl) h
    | some c => exact ⟨c, rfl⟩
  obtain ⟨c, hc⟩ := hlast
  unfold stepFn
  rw [hc]
  dsimp only
  split
  · exact ⟨_, rfl⟩
  · split
    · exact ⟨_, rfl⟩
    · exact ⟨_, rfl⟩

theorem stepN_drains {words : List Wd} {word_count letter_count : Nat} :
    ∀ (n : Nat) (s : SState),
      frontierMeasure words.length word_count s.frontier ≤ n →
      (stepN words word_count letter_count n s).frontier = [] := by
  intro n
  induction n with
  | zero =>
    intro s hs
    by_contra hne
    rw [show stepN words word_count letter_count 0 s = s from rfl] at hne
    have := frontierMeasure_pos (n := words.length) (W := word_count) hne
    omega
  | succ n ih =>
    intro s hs
    by_cases hf : s.frontier = []
    · rw [stepN_of_empty hf]; exact hf
    · obtain ⟨s', hs'⟩ := stepFn_isSome words word_count letter_count hf
      have hdec := stepFn_measure hs'
      rw [show stepN words word_count letter_count (n + 1) s =
          stepN words word_count letter_count n s' from by
        rw [stepN_succ, hs']]
      exact ih s' (by omega)

theorem stepFn_of_match (words : List Wd) {word_count letter_count : Nat}
    {s : SState} {check : Wd} (hc : s.frontier.getLast? = some check)
    (h1 : count_characters check = letter_count ∧
      count_words check = word_count) :
    stepFn words word_count letter_count s =
      some ⟨s.frontier.dropLast, s.phrases ++ [check]⟩ := by
  unfold stepFn
  rw [hc]
  dsimp only
  rw [if_pos h1]

theorem stepFn_of_expand (words : List Wd) {word_count letter_count : Nat}
    {s : SState} {check : Wd} (hc : s.frontier.getLast? = some check)
    (h1 : ¬(count_characters check = letter_count ∧
      count_words check = word_count))
    (h2 : count_words check < word_count ∧
      count_characters check < letter_count) :
    stepFn words word_count letter_count s =
      some ⟨s.frontier.dropLast ++ expandOne words word_count letter_count
        (count_characters check) (count_words check) check, s.phrases⟩ := by
  unfold stepFn
  rw [hc]
  dsimp only
  rw [if_neg h1, if_pos h2]

theorem stepFn_of_discard (words : List Wd) {word_count letter_count : Nat}
    {s : SState} {check : Wd} (hc : s.frontier.getLast? = some check)
    (h1 : ¬(count_characters check = letter_count ∧
      count_words check = word_count))
    (h2 : ¬(count_words check < word_count ∧
      count_characters check < letter_count)) :
    stepFn words word_count letter_count s =
      some ⟨s.frontier.dropLast, s.phrases⟩ := by
  unfold stepFn
  rw [hc]
  dsimp only
  rw [if_neg h1, if_neg h2]

theorem stepN_phrases {words : List Wd} {word_count letter_count : Nat} :
    ∀ (n : Nat) (s : SState),
      frontierMeasure words.length word_count s.frontier ≤ n →
      (stepN words word_count letter_count n s).phrases =
        s.phrases ++
          (s.frontier.reverse.map
            (subtree words word_count letter_count)).flatten := by
  intro n
  induction n with
  | zero =>
    intro s hs
    have hf : s.frontier = [] := by
      by_contra hne
      have := frontierMeasure_pos (n := words.length) (W := word_count) hne
      omega
    rw [show stepN words word_count letter_count 0 s = s from rfl, hf]
    simp
  | succ n ih =>
    intro s hs
    by_cases hf : s.frontier = []
    · rw [stepN_of_empty hf, hf]
      simp
    · have hlast : ∃ c, s.frontier.getLast? = some c := by
        cases hgl : s.frontier.getLast? with
        | none => exact absurd (List.getLast?_eq_none_iff.mp hgl) hf
        | some c => exact ⟨c, rfl⟩
      obtain ⟨check, hc⟩ := hlast
      have hdecomp := eq_dropLast_concat hc
      have hrev : s.frontier.reverse =
          check :: s.frontier.dropLast.reverse := by
        conv_lhs => rw [hdecomp]
        simp
      by_cases h1 : count_characters check = letter_count ∧
          count_words check = word_count
      · have hs' := stepFn_of_match words hc h1
        rw [show stepN words word_count letter_count (n + 1) s =
            stepN words word_count letter_count n
              ⟨s.frontier.dropLast, s.phrases ++ [check]⟩ from by
          rw [stepN_succ, hs']]
        have hmeas := stepFn_measure hs'
        rw [ih _ (by omega)]
        rw [hrev, List.map_cons, List.flatten_cons,
          subtree_match h1.1 h1.2]
        simp
      · by_cases h2 : count_words check < word_count ∧
            count_characters check < letter_count
        · have hs' := stepFn_of_expand words hc h1 h2
          rw [show stepN words word_count letter_count (n + 1) s =
              stepN words word_count letter_count n
                ⟨s.frontier.dropLast ++ expandOne words word_count
                  letter_count (count_characters check)
                  (count_words check) check, s.phrases⟩ from by
            rw [stepN_succ, hs']]
          have hmeas := stepFn_measure hs'
          rw [ih _ (by omega)]
          rw [hrev, List.map_cons, List.flatten_cons,
            subtree_expand h1 h2.1 h2.2]
          simp
        · have hs' := stepFn_of_discard words hc h1 h2
          rw [show stepN words word_count letter_count (n + 1) s =
              stepN words word_count letter_count n
                ⟨s.frontier.dropLast, s.phrases⟩ from by
            rw [stepN_succ, hs']]
          have hmeas := stepFn_measure hs'
          rw [ih _ (by omega)]
          rw [hrev, List.map_cons, List.flatten_cons,
            subtree_else h1 h2]
          simp

theorem mainPhrases_eq (words : List Wd) (word_count letter_count : Nat) :
    mainPhrases words word_count letter_count =
      ((seed words word_count letter_count).reverse.map
        (subtree words word_count letter_count)).flatten := by
  unfold mainPhrases runSearch
  rw [stepN_phrases (searchFuel words word_count letter_count)
    (initState words word_count letter_count) le_rfl]
  simp [initState]

/-- Spec-side definition ("the exact number of length-`W` sequences of
dictionary words"): all length-`k` sequences of dictionary entries, one
per choice of entry occurrence at each position. -/
def seqCandidates (dict : List Wd) : Nat → List (List Wd)
  | 0 => [[]]
  | k + 1 =>
    (dict.map (fun w => (seqCandidates dict k).map (fun s => w :: s))).flatten

/-- Spec-side definition: the concatenated letter count of a sequence of
words, excluding the separating spaces. -/
def seqLetters (s : List Wd) : Nat := (s.map count_characters).sum

/-- Spec-side definition of the expected result: the number of length-`W`
sequences of dictionary words whose concatenated letter count (excluding
separators) is exactly `L`. -/
def specCount (dict : List Wd) (word_count letter_count : Nat) : Nat :=
  ((seqCandidates dict word_count).filter
    (fun s => decide (seqLetters s = letter_count))).length

/-- Recursive form of the sequence count, convenient for induction. -/
def countSeqs (dict : List Wd) : Nat → Nat → Nat
  | 0, t => if t = 0 then 1 else 0
  | k + 1, t =>
    (dict.map (fun w => if count_characters w ≤ t then
      countSeqs dict k (t - count_characters w) else 0)).sum

theorem countSeqs_succ (dict : List Wd) (k t : Nat) :
    countSeqs dict (k + 1) t =
      (dict.map (fun w => if count_characters w ≤ t then
        countSeqs dict k (t - count_characters w) else 0)).sum := rfl

theorem length_filter_flatten (p : List Wd → Bool) :
    ∀ (L : List (List (List Wd))),
      (L.flatten.filter p).length =
        (L.map (fun b => (b.filter p).length)).sum
  | [] => rfl
  | b :: L => by
    simp only [List.flatten_cons, List.filter_append, List.length_append,
      List.map_cons, List.sum_cons]
    rw [length_filter_flatten p L]

theorem seqLetters_cons (w : Wd) (s : List Wd) :
    seqLetters (w :: s) = count_characters w + seqLetters s := by
  unfold seqLetters
  simp

theorem length_filter_cons_map (w : Wd) (t : Nat) (l : List (List Wd)) :
    ((l.map (fun s => w :: s)).filter
      (fun s => decide (seqLetters s = t))).length =
      if count_characters w ≤ t then
        (l.filter (fun s =>
          decide (seqLetters s = t - count_characters w))).length
      else 0 := by
  rw [← List.countP_eq_length_filter, List.countP_map]
  by_cases hc : count_characters w ≤ t
  · rw [if_pos hc, ← List.countP_eq_length_filter]
    apply List.countP_congr
    intro s _
    simp only [Function.comp, decide_eq_true_eq, seqLetters_cons]
    constructor <;> intro h <;> omega
  · rw [if_neg hc]
    rw [List.countP_eq_zero]
    intro s _
    simp only [Function.comp, decide_eq_true_eq, seqLetters_cons]
    omega

theorem countSeqs_eq_specCount_aux (dict : List Wd) :
    ∀ (k t : Nat),
      countSeqs dict k t =
        ((seqCandidates dict k).filter
          (fun s => decide (seqLetters s = t))).length := by
  intro k
  induction k with
  | zero =>
    intro t
    show (if t = 0 then 1 else 0) = _
    by_cases h : t = 0
    · subst h
      simp [seqCandidates, seqLetters]
    · rw [if_neg h]
      simp only [seqCandidates]
      rw [List.filter_cons]
      have : ¬seqLetters [] = t := by
        simp only [seqLetters, List.map_nil, List.sum_nil]
        omega
      simp [this]
  | succ k ih =>
    intro t
    rw [countSeqs_succ]
    unfold seqCandidates
    rw [length_filter_flatten, List.map_map]
    apply congrArg List.sum
    apply List.map_congr_left
    intro w _hw
    simp only [Function.comp]
    rw [length_filter_cons_map]
    by_cases hc : count_characters w ≤ t
    · rw [if_pos hc, if_pos hc, ih]
    · rw [if_neg hc, if_neg hc]

theorem specCount_eq_countSeqs (dict : List Wd)
    (word_count letter_count : Nat) :
    specCount dict word_count letter_count =
      countSeqs dict word_count letter_count :=
  (countSeqs_eq_specCount_aux dict word_count letter_count).symm

theorem countSeqs_eq_zero_of_lt {dict : List Wd}
    (hd : ∀ w ∈ dict, 1 ≤ count_characters w) :
    ∀ (k t : Nat), t < k → countSeqs dict k t = 0 := by
  intro k
  induction k with
  | zero => intro t ht; omega
  | succ k ih =>
    intro t ht
    rw [countSeqs_succ]
    apply List.sum_eq_zero
    intro x hx
    obtain ⟨w, hw, hxw⟩ := List.mem_map.mp hx
    subst hxw
    by_cases hc : count_characters w ≤ t
    · rw [if_pos hc]
      exact ih _ (by have := hd w hw; omega)
    · rw [if_neg hc]

/-- Sum over a filtered list, as a sum of guarded terms over the whole list. -/
theorem map_filter_sum (p : Wd → Bool) (f : Wd → Nat) :
    ∀ (l : List Wd),
      ((l.filter p).map f).sum =
        (l.map (fun x => if p x = true then f x else 0)).sum
  | [] => rfl
  | x :: l => by
    by_cases hx : p x = true <;>
      simp [List.filter_cons, hx, map_filter_sum p f l]

theorem usizeSub_eq_sub {a b : Nat} (h1 : b ≤ a) (h2 : a < USIZE) :
    usizeSub a b = a - b := by
  unfold usizeSub USIZE at *
  have h64 : (2 : Nat) ^ 64 = 18446744073709551616 := by norm_num
  rw [h64] at *
  omega

/-- The dictionaries for which the pruned search is complete: every word is
nonempty, contains no space, and consists of single-byte characters (so
the byte length used by the filters equals the letter count). -/
def DictOk (dict : List Wd) : Prop :=
  ∀ w ∈ dict, w ≠ [] ∧ countSpaces w = 0 ∧ strLen w = w.length

theorem DictOk.cc_eq_strLen {dict : List Wd} (hd : DictOk dict) {w : Wd}
    (hw : w ∈ dict) : count_characters w = strLen w := by
  obtain ⟨-, hsp, hascii⟩ := hd w hw
  rw [count_characters_of_space_free w hsp, hascii]

theorem DictOk.one_le_cc {dict : List Wd} (hd : DictOk dict) {w : Wd}
    (hw : w ∈ dict) : 1 ≤ count_characters w := by
  obtain ⟨hne, hsp, -⟩ := hd w hw
  rw [count_characters_of_space_free w hsp]
  cases w with
  | nil => exact absurd rfl hne
  | cons a t => simp

theorem DictOk.cw_eq_one {dict : List Wd} (hd : DictOk dict) {w : Wd}
    (hw : w ∈ dict) : count_words w = 1 :=
  count_words_of_space_free w (hd w hw).2.1

theorem countSeqs_of_stuck {dict : List Wd}
    (hd1 : ∀ w ∈ dict, 1 ≤ count_characters w)
    {word_count letter_count wc cc : Nat}
    (h1 : ¬(cc = letter_count ∧ wc = word_count))
    (h2 : ¬(wc < word_count ∧ cc < letter_count))
    (hwc : wc ≤ word_count) (hcc : cc ≤ letter_count) :
    countSeqs dict (word_count - wc) (letter_count - cc) = 0 := by
  have hcase : (wc = word_count ∧ cc < letter_count) ∨
      (wc < word_count ∧ cc = letter_count) := by omega
  cases hcase with
  | inl h =>
    rw [show word_count - wc = 0 from by omega]
    show (if letter_count - cc = 0 then 1 else 0) = 0
    rw [if_neg (by omega)]
  | inr h =>
    rw [show letter_count - cc = 0 from by omega]
    exact countSeqs_eq_zero_of_lt hd1 _ 0 (by omega)

theorem subtree_length {dict : List Wd} {word_count letter_count : Nat}
    (hd : DictOk dict) (hu : word_count < USIZE) :
    ∀ (k : Nat) (c : Wd),
      word_count - count_words c ≤ k →
      count_words c ≤ word_count →
      count_characters c ≤ letter_count →
      (subtree dict word_count letter_count c).length =
        countSeqs dict (word_count - count_words c)
          (letter_count - count_characters c) := by
  have hd1 : ∀ w ∈ dict, 1 ≤ count_characters w := fun w hw =>
    hd.one_le_cc hw
  intro k
  induction k with
  | zero =>
    intro c hk hwc hcc
    by_cases h1 : count_characters c = letter_count ∧
        count_words c = word_count
    · rw [subtree_match h1.1 h1.2,
        show word_count - count_words c = 0 from by omega,
        show letter_count - count_characters c = 0 from by omega]
      rfl
    · by_cases h2 : count_words c < word_count ∧
          count_characters c < letter_count
      · omega
      · rw [subtree_else h1 h2]
        exact (countSeqs_of_stuck hd1 h1 h2 hwc hcc).symm
  | succ k ih =>
    intro c hk hwc hcc
    by_cases h1 : count_characters c = letter_count ∧
        count_words c = word_count
    · rw [subtree_match h1.1 h1.2,
        show word_count - count_words c = 0 from by omega,
        show letter_count - count_characters c = 0 from by omega]
      rfl
    · by_cases h2 : count_words c < word_count ∧
          count_characters c < letter_count
      · have hwc1 := one_le_count_words c
        have hW2 : 2 ≤ word_count := by omega
        have husize : usizeSub word_count 1 = word_count - 1 :=
          usizeSub_eq_sub (by omega) hu
        rw [subtree_expand h1 h2.1 h2.2]
        rw [List.length_flatten, List.map_map, List.map_reverse,
          List.sum_reverse]
        unfold expandOne
        rw [List.map_map, map_filter_sum]
        rw [show word_count - count_words c =
          (word_count - (count_words c + 1)) + 1 from by omega,
          countSeqs_succ]
        apply congrArg List.sum
        apply List.map_congr_left
        intro w hw
        have hccw : count_characters w = strLen w := hd.cc_eq_strLen hw
        have hcc1 : 1 ≤ count_characters w := hd.one_le_cc hw
        have hcw1 : count_words w = 1 := hd.cw_eq_one hw
        have hcwj : count_words (joinWord c w) = count_words c + 1 := by
          rw [count_words_join, hcw1]
        have hccj : count_characters (joinWord c w) =
            count_characters c + count_characters w :=
          count_characters_join c w
        simp only [Function.comp]
        by_cases hA : count_characters w <
            letter_count - count_characters c
        · have hp : pushCond word_count letter_count
              (count_characters c) (count_words c) w :=
            Or.inl (by omega)
          rw [if_pos (decide_eq_true hp), if_pos (by omega)]
          rw [ih (joinWord c w) (by omega) (by omega) (by omega)]
          rw [hcwj, hccj]
          congr 1
          omega
        · by_cases hB : count_characters w =
              letter_count - count_characters c
          · by_cases hb : count_words c = word_count - 1
            · have hp : pushCond word_count letter_count
                  (count_characters c) (count_words c) w :=
                Or.inr ⟨by omega, by omega⟩
              rw [if_pos (decide_eq_true hp), if_pos (by omega)]
              rw [subtree_match (by omega) (by omega)]
              rw [show word_count - (count_words c + 1) = 0 from by omega,
                show letter_count - count_characters c -
                  count_characters w = 0 from by omega]
              rfl
            · have hp : ¬pushCond word_count letter_count
                  (count_characters c) (count_words c) w := by
                rintro (hl | ⟨hr1, hr2⟩)
                · omega
                · omega
              rw [if_neg (fun hcon => hp (of_decide_eq_true hcon)),
                if_pos (by omega)]
              rw [show letter_count - count_characters c -
                count_characters w = 0 from by omega]
              exact (countSeqs_eq_zero_of_lt hd1 _ 0 (by omega)).symm
          · have hC : letter_count - count_characters c <
                count_characters w := by omega
            have hp : ¬pushCond word_count letter_count
                (count_characters c) (count_words c) w := by
              rintro (hl | ⟨hr1, hr2⟩)
              · omega
              · omega
            rw [if_neg (fun hcon => hp (of_decide_eq_true hcon)),
              if_neg (by omega)]
      · rw [subtree_else h1 h2]
        exact (countSeqs_of_stuck hd1 h1 h2 hwc hcc).symm

/-- The bound on the `u32` inputs `word_count` and `letter_count`. -/
def U32 : Nat := 2 ^ 32

theorem mainCount_eq_specCount {dict : List Wd} {word_count letter_count : Nat}
    (hd : DictOk dict) (hW : 1 ≤ word_count) (hWu : word_count < U32)
    (hLu : letter_count < U32) :
    mainCount dict word_count letter_count =
      specCount dict word_count letter_count := by
  have hd1 : ∀ w ∈ dict, 1 ≤ count_characters w := fun w hw =>
    hd.one_le_cc hw
  have h32lt64 : U32 < USIZE := by
    unfold U32 USIZE
    norm_num
  have hu : word_count < USIZE := by omega
  have hL1 : letter_count + 1 < USIZE := by omega
  rw [specCount_eq_countSeqs]
  unfold mainCount
  rw [mainPhrases_eq]
  rw [List.length_flatten, List.map_map, List.map_reverse, List.sum_reverse]
  by_cases hwrap : word_count ≤ letter_count + 1
  · -- no wrap-around: the seed bound is letter_count + 1 - word_count
    have hbound : seedBound letter_count word_count =
        letter_count + 1 - word_count := by
      unfold seedBound
      exact usizeSub_eq_sub (by omega) hL1
    unfold seed
    rw [map_filter_sum]
    have hWsucc : countSeqs dict word_count letter_count =
        (dict.map (fun w => if count_characters w ≤ letter_count then
          countSeqs dict (word_count - 1)
            (letter_count - count_characters w) else 0)).sum := by
      conv_lhs => rw [show word_count = (word_count - 1) + 1 from by omega]
      exact countSeqs_succ dict (word_count - 1) letter_count
    rw [hWsucc]
    apply congrArg List.sum
    apply List.map_congr_left
    intro w hw
    have hccw : count_characters w = strLen w := hd.cc_eq_strLen hw
    have hcw1 : count_words w = 1 := hd.cw_eq_one hw
    simp only [Function.comp]
    by_cases hseed : strLen w ≤ seedBound letter_count word_count
    · rw [if_pos (decide_eq_true hseed)]
      rw [hbound] at hseed
      have hccL : count_characters w ≤ letter_count := by omega
      rw [if_pos hccL]
      rw [subtree_length hd hu word_count w (by omega) (by omega) (by omega)]
      rw [hcw1]
    · rw [if_neg (fun hcon => hseed (of_decide_eq_true hcon))]
      rw [hbound] at hseed
      by_cases hg : count_characters w ≤ letter_count
      · rw [if_pos hg]
        exact (countSeqs_eq_zero_of_lt hd1 _ _ (by omega)).symm
      · rw [if_neg hg]
  · -- wrap-around case: word_count > letter_count + 1, so no sequence of
    -- nonempty words can match, and every subtree is empty
    rw [countSeqs_eq_zero_of_lt hd1 word_count letter_count (by omega)]
    apply List.sum_eq_zero
    intro x hx
    obtain ⟨w, hwseed, hxw⟩ := List.mem_map.mp hx
    have hwdict : w ∈ dict := (List.mem_filter.mp hwseed).1
    subst hxw
    simp only [Function.comp]
    have hcw1 : count_words w = 1 := hd.cw_eq_one hwdict
    by_cases hg : count_characters w ≤ letter_count
    · rw [subtree_length hd hu word_count w (by omega) (by omega) hg]
      rw [hcw1]
      exact countSeqs_eq_zero_of_lt hd1 _ _ (by omega)
    · rw [subtree_of_lt (by omega)]
      rfl

theorem subtree_sound {dict : List Wd} {word_count letter_count : Nat} :
    ∀ (k : Nat) (c : Wd), word_count - count_words c ≤ k →
      ∀ p ∈ subtree dict word_count letter_count c,
        count_characters p = letter_count ∧ count_words p = word_count := by
  intro k
  induction k with
  | zero =>
    intro c hk p hp
    by_cases h1 : count_characters c = letter_count ∧
        count_words c = word_count
    · rw [subtree_match h1.1 h1.2] at hp
      obtain rfl : p = c := List.mem_singleton.mp hp
      exact h1
    · by_cases h2 : count_words c < word_count ∧
          count_characters c < letter_count
      · omega
      · rw [subtree_else h1 h2] at hp
        exact absurd hp (List.not_mem_nil p)
  | succ k ih =>
    intro c hk p hp
    by_cases h1 : count_characters c = letter_count ∧
        count_words c = word_count
    · rw [subtree_match h1.1 h1.2] at hp
      obtain rfl : p = c := List.mem_singleton.mp hp
      exact h1
    · by_cases h2 : count_words c < word_count ∧
          count_characters c < letter_count
      · rw [subtree_expand h1 h2.1 h2.2] at hp
        obtain ⟨b, hb, hpb⟩ := List.mem_flatten.mp hp
        obtain ⟨x, hxrev, hbx⟩ := List.mem_map.mp hb
        have hx : x ∈ expandOne dict word_count letter_count
            (count_characters c) (count_words c) c :=
          List.mem_reverse.mp hxrev
        have hlt := count_words_lt_of_mem_expandOne hx
        subst hbx
        exact ih x (by omega) p hpb
      · rw [subtree_else h1 h2] at hp
        exact absurd hp (List.not_mem_nil p)

/-- Every phrase recorded by the loop matches both targets exactly. -/
theorem mainPhrases_sound {dict : List Wd} {word_count letter_count : Nat}
    {p : Wd} (hp : p ∈ mainPhrases dict word_count letter_count) :
    count_characters p = letter_count ∧ count_words p = word_count := by
  rw [mainPhrases_eq] at hp
  obtain ⟨b, hb, hpb⟩ := List.mem_flatten.mp hp
  obtain ⟨w, hwrev, hbw⟩ := List.mem_map.mp hb
  subst hbw
  exact subtree_sound word_count w (Nat.sub_le _ _) p hpb

/-- Where the elements of a post-step frontier come from: either they were
already on the frontier, or they were pushed by expanding the popped
candidate. -/
theorem stepFn_frontier_src {words : List Wd} {word_count letter_count : Nat}
    {s s' : SState} (h : stepFn words word_count letter_count s = some s') :
    ∀ c ∈ s'.frontier, c ∈ s.frontier ∨
      ∃ check w, check ∈ s.frontier ∧ w ∈ words ∧
        count_words check < word_count ∧
        count_characters check < letter_count ∧
        pushCond word_count letter_count (count_characters check)
          (count_words check) w ∧
        c = joinWord check w := by
  intro c hc
  have hne : s.frontier ≠ [] := by
    intro hnil
    unfold stepFn at h
    rw [hnil] at h
    exact absurd h (by simp)
  have hlast : ∃ ch, s.frontier.getLast? = some ch := by
    cases hgl : s.frontier.getLast? with
    | none => exact absurd (List.getLast?_eq_none_iff.mp hgl) hne
    | some ch => exact ⟨ch, rfl⟩
  obtain ⟨check, hch⟩ := hlast
  have hdecomp := eq_dropLast_concat hch
  have hmemdl : ∀ x, x ∈ s.frontier.dropLast → x ∈ s.frontier := fun x hx =>
    List.Sublist.mem hx (List.dropLast_sublist s.frontier)
  by_cases h1 : count_characters check = letter_count ∧
      count_words check = word_count
  · rw [stepFn_of_match words hch h1] at h
    obtain rfl : s' = ⟨s.frontier.dropLast, s.phrases ++ [check]⟩ :=
      (Option.some.injEq _ _ ▸ h).symm
    exact Or.inl (hmemdl c hc)
  · by_cases h2 : count_words check < word_count ∧
        count_characters check < letter_count
    · rw [stepFn_of_expand words hch h1 h2] at h
      obtain rfl : s' = ⟨s.frontier.dropLast ++ expandOne words word_count
          letter_count (count_characters check) (count_words check) check,
          s.phrases⟩ := (Option.some.injEq _ _ ▸ h).symm
      rcases List.mem_append.mp hc with hcl | hcr
      · exact Or.inl (hmemdl c hcl)
      · obtain ⟨w, hw, hp, hcw⟩ := mem_expandOne.mp hcr
        refine Or.inr ⟨check, w, ?_, hw, h2.1, h2.2, hp, hcw⟩
        rw [hdecomp]
        exact List.mem_append.mpr (Or.inr (List.mem_singleton.mpr rfl))
    · rw [stepFn_of_discard words hch h1 h2] at h
      obtain rfl : s' = ⟨s.frontier.dropLast, s.phrases⟩ :=
        (Option.some.injEq _ _ ▸ h).symm
      exact Or.inl (hmemdl c hc)

/-- An upper bound for the word counts of the dictionary entries. -/
def maxWordCount (dict : List Wd) : Nat :=
  (dict.map count_words).foldr max 0

theorem le_maxWordCount {dict : List Wd} {w : Wd} (hw : w ∈ dict) :
    count_words w ≤ maxWordCount dict := by
  unfold maxWordCount
  induction dict with
  | nil => exact absurd hw (List.not_mem_nil w)
  | cons x l ih =>
    simp only [List.map_cons, List.foldr_cons]
    rcases List.mem_cons.mp hw with rfl | hl
    · exact le_max_left _ _
    · exact le_trans (ih hl) (le_max_right _ _)

/-- The word count of every frontier candidate stays below
`word_count + maxWordCount`, at every step of the search. -/
theorem stepN_frontier_words_bound {words : List Wd}
    {word_count letter_count : Nat} :
    ∀ (n : Nat) (s : SState),
      (∀ c ∈ s.frontier, count_words c ≤ word_count + maxWordCount words) →
      ∀ c ∈ (stepN words word_count letter_count n s).frontier,
        count_words c ≤ word_count + maxWordCount words := by
  intro n
  induction n with
  | zero => intro s hs; exact hs
  | succ n ih =>
    intro s hs
    cases hstep : stepFn words word_count letter_count s with
    | none =>
      rw [show stepN words word_count letter_count (n + 1) s = s from by
        rw [stepN_succ, hstep]]
      exact hs
    | some s' =>
      rw [show stepN words word_count letter_count (n + 1) s =
          stepN words word_count letter_count n s' from by
        rw [stepN_succ, hstep]]
      apply ih
      intro c hc
      rcases stepFn_frontier_src hstep c hc with hold | hnew
      · exact hs c hold
      · obtain ⟨check, w, -, hw, hwc, -, -, rfl⟩ := hnew
        rw [count_words_join]
        have := le_maxWordCount hw
        omega

/-- For space-free dictionaries, a frontier whose candidates are within both
targets stays that way under every loop iteration. -/
theorem stepN_frontier_admissible {words : List Wd}
    {word_count letter_count : Nat}
    (hsp : ∀ w ∈ words, countSpaces w = 0) :
    ∀ (n : Nat) (s : SState),
      (∀ c ∈ s.frontier,
        count_words c ≤ word_count ∧ count_characters c ≤ letter_count) →
      ∀ c ∈ (stepN words word_count letter_count n s).frontier,
        count_words c ≤ word_count ∧ count_characters c ≤ letter_count := by
  intro n
  induction n with
  | zero => intro s hs; exact hs
  | succ n ih =>
    intro s hs
    cases hstep : stepFn words word_count letter_count s with
    | none =>
      rw [show stepN words word_count letter_count (n + 1) s = s from by
        rw [stepN_succ, hstep]]
      exact hs
    | some s' =>
      rw [show stepN words word_count letter_count (n + 1) s =
          stepN words word_count letter_count n s' from by
        rw [stepN_succ, hstep]]
      apply ih
      intro c hc
      rcases stepFn_frontier_src hstep c hc with hold | hnew
      · exact hs c hold
      · obtain ⟨check, w, -, hw, hwc, hcc, hpush, rfl⟩ := hnew
        have hcw1 : count_words w = 1 :=
          count_words_of_space_free w (hsp w hw)
        have hccw : count_characters w ≤ strLen w :=
          count_characters_le_strLen w
        rw [count_words_join, count_characters_join, hcw1]
        rcases hpush with hl | ⟨-, hr⟩
        · constructor <;> omega
        · constructor <;> omega

/-- One iteration of the `while` loop of `main`, as a relation on loop
states: pop the last candidate and either record it, expand it, or
discard it. -/
inductive Step (words : List Wd) (word_count letter_count : Nat) :
    SState → SState → Prop
  | found : ∀ (frontier phrases : List Wd) (check : Wd),
      frontier.getLast? = some check →
      count_characters check = letter_count →
      count_words check = word_count →
      Step words word_count letter_count ⟨frontier, phrases⟩
        ⟨frontier.dropLast, phrases ++ [check]⟩
  | grow : ∀ (frontier phrases : List Wd) (check : Wd),
      frontier.getLast? = some check →
      ¬(count_characters check = letter_count ∧
        count_words check = word_count) →
      count_words check < word_count →
      count_characters check < letter_count →
      Step words word_count letter_count ⟨frontier, phrases⟩
        ⟨frontier.dropLast ++ expandOne words word_count letter_count
          (count_characters check) (count_words check) check, phrases⟩
  | toss : ∀ (frontier phrases : List Wd) (check : Wd),
      frontier.getLast? = some check →
      ¬(count_characters check = letter_count ∧
        count_words check = word_count) →
      ¬(count_words check < word_count ∧
        count_characters check < letter_count) →
      Step words word_count letter_count ⟨frontier, phrases⟩
        ⟨frontier.dropLast, phrases⟩

/-- The `Step` relation is exactly the loop body `stepFn` of the code. -/
theorem step_iff_stepFn {words : List Wd} {word_count letter_count : Nat}
    {s t : SState} :
    Step words word_count letter_count s t ↔
      stepFn words word_count letter_count s = some t := by
  constructor
  · intro h
    cases h with
    | found frontier phrases check hc hcc hwc =>
      exact stepFn_of_match words hc ⟨hcc, hwc⟩
    | grow frontier phrases check hc h1 h2 h3 =>
      exact stepFn_of_expand words hc h1 ⟨h2, h3⟩
    | toss frontier phrases check hc h1 h2 =>
      exact stepFn_of_discard words hc h1 h2
  · intro h
    obtain ⟨f, p⟩ := s
    have hne : f ≠ [] := by
      intro hnil
      unfold stepFn at h
      rw [show (SState.mk f p).frontier = f from rfl, hnil] at h
      exact absurd h (by simp)
    have hlast : ∃ ch, f.getLast? = some ch := by
      cases hgl : f.getLast? with
      | none => exact absurd (List.getLast?_eq_none_iff.mp hgl) hne
      | some ch => exact ⟨ch, rfl⟩
    obtain ⟨check, hch⟩ := hlast
    by_cases h1 : count_characters check = letter_count ∧
        count_words check = word_count
    · rw [stepFn_of_match words (s := ⟨f, p⟩) hch h1] at h
      obtain rfl := (Option.some.injEq _ _ ▸ h)
      exact Step.found f p check hch h1.1 h1.2
    · by_cases h2 : count_words check < word_count ∧
          count_characters check < letter_count
      · rw [stepFn_of_expand words (s := ⟨f, p⟩) hch h1 h2] at h
        obtain rfl := (Option.some.injEq _ _ ▸ h)
        exact Step.grow f p check hch h1 h2.1 h2.2
      · rw [stepFn_of_discard words (s := ⟨f, p⟩) hch h1 h2] at h
        obtain rfl := (Option.some.injEq _ _ ▸ h)
        exact Step.toss f p check hch h1 h2

/-!
The integer-reading boundary (`read_int` in the source).  The pure content
of one read is modelled as a function from the line obtained from standard
input to the returned value together with the diagnostic line printed on
parse failure (`none` when nothing is printed).  `trim` models Rust
`str::trim`, which removes the characters with the Unicode `White_Space`
property from both ends, and `parse_u32` models `str::parse::<u32>`: an
optional leading `+`, then one or more ASCII digits, with the value
required to fit in 32 bits.
-/

/-- Rust `char::is_whitespace`, the predicate used by `str::trim`: the
Unicode `White_Space` property, i.e. U+0009..U+000D, U+0020, U+0085,
U+00A0, U+1680, U+2000..U+200A, U+2028, U+2029, U+202F, U+205F and
U+3000. -/
def rustIsWhitespace (c : Char) : Bool :=
  decide ((0x09 ≤ c.toNat ∧ c.toNat ≤ 0x0d) ∨ c.toNat = 0x20 ∨
    c.toNat = 0x85 ∨ c.toNat = 0xa0 ∨ c.toNat = 0x1680 ∨
    (0x2000 ≤ c.toNat ∧ c.toNat ≤ 0x200a) ∨ c.toNat = 0x2028 ∨
    c.toNat = 0x2029 ∨ c.toNat = 0x202f ∨ c.toNat = 0x205f ∨
    c.toNat = 0x3000)

/-- Rust `str::trim`: strip `White_Space` characters from both ends. -/
def trim (s : Wd) : Wd :=
  ((s.dropWhile rustIsWhitespace).reverse.dropWhile rustIsWhitespace).reverse

/-- The numeric value of a digit string, most significant digit first. -/
def digitsVal (t : Wd) : Nat :=
  t.foldl (fun acc c => acc * 10 + (c.toNat - '0'.toNat)) 0

/-- Rust `str::parse::<u32>()`: optional leading `+`, then at least one
ASCII digit, and the value must fit in a `u32`. -/
def parse_u32 (s : Wd) : Option Nat :=
  let t := match s with
    | '+' :: rest => rest
    | _ => s
  if t ≠ [] ∧ t.all Char.isDigit ∧ digitsVal t < U32 then some (digitsVal t)
  else none

/-- `read_int` from the source, as a function from the line read from
standard input to the pair (returned value, diagnostic printed on parse
failure). -/
def read_int (line : Wd) : Nat × Option Wd :=
  let trimmed := trim line
  match parse_u32 trimmed with
  | some i => (i, none)
  | none => (0, some ("failed to parse int: ".data ++ trimmed))

/-!  The claims. -/

/-- C1, counterexample: the count is not the exact number of matching
sequences for every dictionary.  With dictionary `["ab", ""]` and target
(2 words, 2 letters) there are two matching sequences, `("ab", "")` and
`("", "ab")`, but the seed filter rejects `"ab"` (its byte length 2
exceeds the bound `2 + 1 - 2 = 1`), so the search reports only 1. -/
theorem c1_counterexample :
    mainCount ["ab".data, []] 2 2 ≠ specCount ["ab".data, []] 2 2 ∧
    mainCount ["ab".data, []] 2 2 = 1 ∧
    specCount ["ab".data, []] 2 2 = 2 :=
  ⟨by decide, by decide, by decide⟩

/-- C1, amended: for every dictionary whose words are nonempty, space-free
and single-byte-encoded, and every target with `1 ≤ W` (both targets being
`u32` values), the reported count equals the exact number of length-`W`
sequences of dictionary words whose concatenated letter count (excluding
the separating spaces) equals `L`; the pruning never discards a true
match. -/
theorem c1_completeness_amended (dict : List Wd)
    (word_count letter_count : Nat) (hd : DictOk dict)
    (hW : 1 ≤ word_count) (hWu : word_count < U32) (hLu : letter_count < U32) :
    mainCount dict word_count letter_count =
      specCount dict word_count letter_count :=
  mainCount_eq_specCount hd hW hWu hLu

/-- Witness for C1 on the dictionary `["a", "an", "cat"]` with target
(2 words, 4 letters). -/
theorem c1_witness :
    mainCount ["a".data, "an".data, "cat".data] 2 4 =
      specCount ["a".data, "an".data, "cat".data] 2 4 :=
  c1_completeness_amended ["a".data, "an".data, "cat".data] 2 4
    (by unfold DictOk; decide) (by decide) (by decide) (by decide)

/-- C2: the claim states that for `W > L + 1` the frontier is seeded empty
and the bound `L + 1 - W` is never computed with wrap-around.  The code
has no such guard: at dictionary `["a"]`, `W = 3`, `L = 1` the `usize`
computation `1 + 1 - 3` wraps around to `2^64 - 1` (release semantics;
debug builds abort on the underflow instead), so the word `"a"` is seeded
rather than the frontier being empty.  The reported count still happens
to be 0 here. -/
theorem c2_underflow_bug :
    seedBound 1 3 = 2 ^ 64 - 1 ∧
    seed ["a".data] 3 1 = ["a".data] ∧
    mainCount ["a".data] 3 1 = 0 :=
  ⟨by decide, by decide, by decide⟩

/-- C3, counterexample: with dictionary `["a"]` and target `W = 0`,
`L = 0`, the seeded frontier contains `"a"`, whose word count 1 exceeds
`W = 0` and whose letter count 1 exceeds `L = 0` — so not every pushed
candidate satisfies the claimed bounds. -/
theorem c3_counterexample :
    ((stepN ["a".data] 0 0 0 (initState ["a".data] 0 0)).frontier.all
      (fun c => decide (count_words c ≤ 0 ∧ count_characters c ≤ 0)))
      = false :=
  by decide

/-- C3, amended: for every dictionary of space-free words and every target
with `1 ≤ W ≤ L + 1` (no wrap-around of the seed bound, `L` a `u32`
value), every candidate on the frontier after any number of loop
iterations — i.e. every candidate ever pushed, at seeding or by an
expansion step — satisfies `wordCount ≤ W` and `letterCount ≤ L`. -/
theorem c3_admissibility_amended (words : List Wd)
    (word_count letter_count : Nat)
    (hsp : ∀ w ∈ words, countSpaces w = 0) (hW : 1 ≤ word_count)
    (hWL : word_count ≤ letter_count + 1) (hLu : letter_count < U32) :
    ∀ n, ((stepN words word_count letter_count n
      (initState words word_count letter_count)).frontier.all
        (fun c => decide (count_words c ≤ word_count ∧
          count_characters c ≤ letter_count))) = true := by
  have h3264 : U32 < USIZE := by
    unfold U32 USIZE
    norm_num
  have hinit : ∀ c ∈ (initState words word_count letter_count).frontier,
      count_words c ≤ word_count ∧ count_characters c ≤ letter_count := by
    intro c hc
    have hc' : c ∈ List.filter
        (fun w => decide (strLen w ≤ seedBound letter_count word_count))
        words := hc
    have hcd : c ∈ words := (List.mem_filter.mp hc').1
    have hcb : strLen c ≤ seedBound letter_count word_count :=
      of_decide_eq_true (List.mem_filter.mp hc').2
    have hb : seedBound letter_count word_count =
        letter_count + 1 - word_count := by
      unfold seedBound
      exact usizeSub_eq_sub (by omega) (by omega)
    have h1 : count_words c = 1 := count_words_of_space_free c (hsp c hcd)
    have h2 : count_characters c ≤ strLen c := count_characters_le_strLen c
    constructor <;> omega
  intro n
  rw [List.all_eq_true]
  intro c hc
  exact decide_eq_true (stepN_frontier_admissible hsp n _ hinit c hc)

/-- Witness for C3 on the dictionary `["a", "an", "cat"]` with target
(2 words, 4 letters), after 2 loop iterations. -/
theorem c3_witness :
    ((stepN ["a".data, "an".data, "cat".data] 2 4 2
      (initState ["a".data, "an".data, "cat".data] 2 4)).frontier.all
        (fun c => decide (count_words c ≤ 2 ∧ count_characters c ≤ 4)))
      = true :=
  c3_admissibility_amended ["a".data, "an".data, "cat".data] 2 4
    (by decide) (by decide) (by decide) (by decide) 2

/-- C4: for every finite dictionary and every target the search loop
terminates — after some finite number of iterations the frontier is
empty — and the word length of every candidate ever examined is bounded
(by the word target plus the largest word count of a dictionary entry). -/
theorem c4_termination (words : List Wd) (word_count letter_count : Nat) :
    (∃ n, (stepN words word_count letter_count n
      (initState words word_count letter_count)).frontier = []) ∧
    ∀ n, ((stepN words word_count letter_count n
      (initState words word_count letter_count)).frontier.all
        (fun c => decide (count_words c ≤ word_count + maxWordCount words)))
      = true := by
  constructor
  · exact ⟨searchFuel words word_count letter_count,
      stepN_drains _ _ le_rfl⟩
  · intro n
    rw [List.all_eq_true]
    intro c hc
    apply decide_eq_true
    apply stepN_frontier_words_bound n _ _ c hc
    intro x hx
    have hx' : x ∈ List.filter
        (fun w => decide (strLen w ≤ seedBound letter_count word_count))
        words := hx
    have hxd : x ∈ words := (List.mem_filter.mp hx').1
    have := le_maxWordCount hxd
    omega

/-- C5: every phrase appended to the result set matches both targets
exactly: its letter count is `L` and its word count is `W`. -/
theorem c5_exactness (dict : List Wd) (word_count letter_count : Nat)
    (p : Wd) (hp : p ∈ mainPhrases dict word_count letter_count) :
    count_characters p = letter_count ∧ count_words p = word_count :=
  mainPhrases_sound hp

/-- Witness for C5: the phrase `"cat a"` found for the dictionary
`["a", "an", "cat"]` with target (2 words, 4 letters). -/
theorem c5_witness :
    count_characters "cat a".data = 4 ∧ count_words "cat a".data = 2 :=
  c5_exactness ["a".data, "an".data, "cat".data] 2 4 "cat a".data
    (by decide)

/-- C6: the claim states that `W == 0` or `L < W - 1` always yields count
0 with no fatal error.  With dictionary `["", "x"]`, `W = 3`, `L = 1`
(so `L < W - 1`), the wrapped seed bound admits every word, and the
search then finds the phrase `"  x"` (empty, empty, `"x"`), reporting
count 1 instead of 0 (and debug builds abort on the underflow before
reaching the search at all). -/
theorem c6_degenerate_bug :
    (1 : Nat) < 3 - 1 ∧ mainCount [[], "x".data] 3 1 = 1 :=
  ⟨by decide, by decide⟩

/-- C7: on the dictionary `["a", "an", "cat"]` with target `W = 2`,
`L = 4`, the search reports exactly 3 matches, namely `"cat a"`,
`"an an"` and `"a cat"` (in discovery order). -/
theorem c7_scenario_a :
    mainPhrases ["a".data, "an".data, "cat".data] 2 4 =
      ["cat a".data, "an an".data, "a cat".data] ∧
    mainCount ["a".data, "an".data, "cat".data] 2 4 = 3 :=
  ⟨by decide, by decide⟩

/-- C8: one integer read returns the parsed value of the trimmed line
when the parse succeeds, and on a parse failure it reports the failure on
the output stream and returns zero — it neither re-prompts nor aborts. -/
theorem c8_parse_leniency (line : Wd) :
    (∀ n, parse_u32 (trim line) = some n → read_int line = (n, none)) ∧
    (parse_u32 (trim line) = none →
      read_int line =
        (0, some ("failed to parse int: ".data ++ trim line))) := by
  constructor
  · intro n h
    simp [read_int, h]
  · intro h
    simp [read_int, h]

/-- Witness for C8: the line `" 42 "` parses to 42 with no diagnostic; so
does a line with surrounding non-ASCII white space (U+00A0), which
`str::trim` also removes; the line `"abc"` fails to parse, produces the
diagnostic and returns 0. -/
theorem c8_witness :
    read_int " 42 ".data = (42, none) ∧
    read_int " 42 ".data = (42, none) ∧
    read_int "abc".data =
      (0, some ("failed to parse int: ".data ++ trim "abc".data)) :=
  ⟨(c8_parse_leniency " 42 ".data).1 42 (by decide),
   (c8_parse_leniency " 42 ".data).1 42 (by decide),
   (c8_parse_leniency "abc".data).2 (by decide)⟩

/-- C9: the count is over sequences of dictionary positions, not distinct
phrase strings: a dictionary containing the same space-free (single-byte)
word twice, with target one word and that word's length in letters,
yields the phrase twice — count 2 with only one distinct phrase. -/
theorem c9_positional_counting (w : Wd)
    (hsp : countSpaces w = 0) (hascii : strLen w = w.length)
    (hLu : strLen w < U32) :
    mainPhrases [w, w] 1 (strLen w) = [w, w] ∧
    mainCount [w, w] 1 (strLen w) = 2 ∧
    (mainPhrases [w, w] 1 (strLen w)).dedup = [w] := by
  have h3264 : U32 < USIZE := by
    unfold U32 USIZE
    norm_num
  have hcc : count_characters w = strLen w := by
    rw [count_characters_of_space_free w hsp, hascii]
  have hcw : count_words w = 1 := count_words_of_space_free w hsp
  have hb : seedBound (strLen w) 1 = strLen w := by
    unfold seedBound
    rw [usizeSub_eq_sub (by omega) (by omega)]
    omega
  have hseed : seed [w, w] 1 (strLen w) = [w, w] := by
    unfold seed
    rw [hb]
    simp
  have hst : subtree [w, w] 1 (strLen w) w = [w] := subtree_match hcc hcw
  have hmp : mainPhrases [w, w] 1 (strLen w) = [w, w] := by
    rw [mainPhrases_eq, hseed]
    simp [hst]
  refine ⟨hmp, ?_, ?_⟩
  · unfold mainCount
    rw [hmp]
    rfl
  · rw [hmp]
    simp [List.dedup_cons_of_mem]

/-- Witness for C9 on the dictionary `["hi", "hi"]` with target
(1 word, 2 letters). -/
theorem c9_witness :
    mainPhrases ["hi".data, "hi".data] 1 2 = ["hi".data, "hi".data] ∧
    mainCount ["hi".data, "hi".data] 1 2 = 2 ∧
    (mainPhrases ["hi".data, "hi".data] 1 2).dedup = ["hi".data] :=
  c9_positional_counting "hi".data (by decide) (by decide) (by decide)

/-- C10: the search is deterministic — the loop-body relation `Step`
relates each state to at most one successor, so two runs from the same
dictionary and targets pop, expand and record identically, producing the
same count and the same discovery order of matches. -/
theorem c10_deterministic (words : List Wd) (word_count letter_count : Nat)
    (s t1 t2 : SState)
    (h1 : Step words word_count letter_count s t1)
    (h2 : Step words word_count letter_count s t2) : t1 = t2 := by
  rw [step_iff_stepFn] at h1 h2
  rw [h1] at h2
  exact Option.some.inj h2

/-- Witness for C10: the unique step from the seeded state for
dictionary `["hi"]` with target (1 word, 2 letters). -/
theorem c10_witness : (⟨[], ["hi".data]⟩ : SState) = ⟨[], ["hi".data]⟩ :=
  c10_deterministic ["hi".data] 1 2 ⟨["hi".data], []⟩ _ _
    ((step_iff_stepFn (t := ⟨[], ["hi".data]⟩)).mpr (by decide))
    ((step_iff_stepFn (t := ⟨[], ["hi".data]⟩)).mpr (by decide))

end Letterwords
